import Mathlib

/-!
Verification development for the two-persona debate orchestration program
(`graph.py` and `main.py`).

Python strings are embedded as `List Char`; message objects and the graph
state are embedded as structures mirroring the `TypedDict` definitions.
The external language-model calls are opaque collaborators: the generated
text is passed in as a parameter (indexed by call for the loop runner).
Fallible parsing (Python `try`/`except IndexError`) is embedded via
`Option`.
-/

/-- Embeds the Python string "Scientist". -/
def scientistName : List Char := "Scientist".toList

/-- Embeds the Python string "Philosopher". -/
def philosopherName : List Char := "Philosopher".toList

/-- Embeds the node name string "agent" used by the graph. -/
def agentName : List Char := "agent".toList

/-- Embeds the node name string "judge" used by the graph. -/
def judgeName : List Char := "judge".toList

/-- Embeds the sentinel returned by `format_history` on an empty
message list (graph.py line 83). -/
def notStartedSentinel : List Char := "The debate has not started yet.".toList

/-- Embeds the filler sentence substituted by the repetition guard
(graph.py line 106). -/
def fillerText : List Char :=
  "I will restate my previous point to emphasize its importance.".toList

/-- Embeds the marker string "SUMMARY:". -/
def summaryMark : List Char := "SUMMARY:".toList

/-- Embeds the marker string "WINNER:". -/
def winnerMark : List Char := "WINNER:".toList

/-- Embeds the marker string "JUSTIFICATION:". -/
def justificationMark : List Char := "JUSTIFICATION:".toList

/-- Embeds the fallback summary string (graph.py line 133). -/
def fallbackSummary : List Char :=
  "The judge failed to provide a structured summary.".toList

/-- Embeds the fallback winner string (graph.py line 134). -/
def fallbackWinner : List Char := "No winner declared".toList

/-- Embeds the fallback justification string (graph.py line 135):
the Python source reads "The judge's output was malformed."; the
apostrophe is spelled `Char.ofNat 39` here. -/
def fallbackJustification : List Char :=
  "The judge".toList ++ [Char.ofNat 39] ++ "s output was malformed.".toList

/-- Embeds `langchain` message objects as used by the source:
`AnyMessage(content=response, name=speaker)` (graph.py line 108). -/
structure AnyMessage where
  content : List Char
  name : List Char
deriving DecidableEq

/-- Embeds the `GraphState` TypedDict (graph.py lines 11-18).  The
`winner`, `justification` and `summary` keys are absent from the initial
state dict built in main.py, hence `Option`. -/
structure GraphState where
  topic : List Char
  messages : List AnyMessage
  round_number : Nat
  next_speaker : List Char
  winner : Option (List Char)
  justification : Option (List Char)
  summary : Option (List Char)
deriving DecidableEq

/-- Embeds Python `str.isspace` for the characters relevant to `strip()`:
space, tab, newline, carriage return, vertical tab, form feed. -/
def isPySpace (c : Char) : Bool :=
  c = ' ' || c = '\t' || c = '\n' || c = '\r' ||
    c = Char.ofNat 11 || c = Char.ofNat 12

/-- Embeds Python `str.lstrip()`. -/
def pyLstrip (s : List Char) : List Char := s.dropWhile isPySpace

/-- Embeds Python `str.rstrip()`. -/
def pyRstrip (s : List Char) : List Char := (s.reverse.dropWhile isPySpace).reverse

/-- Embeds Python `str.strip()`. -/
def pyStrip (s : List Char) : List Char := pyRstrip (pyLstrip s)

/-- Fuel-indexed decimal rendering of a natural number (digits pushed onto
`acc`); embeds the decimal conversion performed by Python f-string
interpolation of an `int`. -/
def natCharsCore : Nat → Nat → List Char → List Char
  | 0, _, acc => acc
  | fuel + 1, n, acc =>
    if n < 10 then Char.ofNat (48 + n % 10) :: acc
    else natCharsCore fuel (n / 10) (Char.ofNat (48 + n % 10) :: acc)

/-- Decimal rendering of a natural number, as Python `str(n)` / f-string
interpolation produces it. -/
def natChars (n : Nat) : List Char := natCharsCore (n + 1) n []

/-- Speaker label chosen from the message index parity
(graph.py line 87): even index renders as Scientist. -/
def speakerLabelAt (i : Nat) : List Char :=
  if i % 2 = 0 then scientistName else philosopherName

/-- One rendered history line including its trailing newline
(graph.py line 88). -/
def histLine (i : Nat) (content : List Char) : List Char :=
  "[Round ".toList ++ natChars (i + 1) ++ "] ".toList ++ speakerLabelAt i ++
    ": ".toList ++ content ++ ['\n']

/-- The accumulated history string before the final `strip()`
(graph.py lines 85-88), with `i` the index of the first message. -/
def histBody : Nat → List AnyMessage → List Char
  | _, [] => []
  | i, m :: rest => histLine i m.content ++ histBody (i + 1) rest

/-- Embeds `format_history` (graph.py lines 80-89). -/
def format_history (messages : List AnyMessage) : List Char :=
  if messages = [] then notStartedSentinel
  else pyStrip (histBody 0 messages)

/-- The partial state update returned by `agent_node`
(graph.py lines 112-116). -/
structure AgentUpdate where
  messages : List AnyMessage
  round_number : Nat
  next_speaker : List Char
deriving DecidableEq

/-- Embeds `agent_node` (graph.py lines 91-116).  The external LLM chain
invocation is opaque: its result is the `response` parameter (the persona
prompt selection feeds only that external call).  The repetition guard and
the returned partial update are translated directly. -/
def agent_node (response : List Char) (s : GraphState) : AgentUpdate :=
  let speaker := s.next_speaker
  let response' :=
    if response ∈ s.messages.map AnyMessage.content then fillerText else response
  let new_message : AnyMessage := ⟨response', speaker⟩
  let next_speaker :=
    if speaker = scientistName then philosopherName else scientistName
  ⟨[new_message], s.round_number + 1, next_speaker⟩

/-- Finds the first occurrence of `sep` in `s`, returning the part before
it and the part after it; `none` when `sep` does not occur.  This is the
primitive underlying Python `str.split(sep)`. -/
def splitFirst (sep : List Char) : List Char → Option (List Char × List Char)
  | [] => if sep.isPrefixOf ([] : List Char) then some ([], []) else none
  | c :: rest =>
    if sep.isPrefixOf (c :: rest) then some ([], (c :: rest).drop sep.length)
    else
      match splitFirst sep rest with
      | some (pre, post) => some (c :: pre, post)
      | none => none

/-- Embeds Python `s.split(sep)[0]`: the prefix of `s` before the first
occurrence of `sep`, or all of `s` when `sep` is absent. -/
def splitIdx0 (sep s : List Char) : List Char :=
  match splitFirst sep s with
  | none => s
  | some (pre, _) => pre

/-- Embeds Python `s.split(sep)[1]`: the segment strictly between the
first and second occurrences of `sep` (to the end when there is no second
occurrence); `none` embeds the `IndexError` raised when `sep` is absent. -/
def splitIdx1 (sep s : List Char) : Option (List Char) :=
  match splitFirst sep s with
  | none => none
  | some (_, post) => some (splitIdx0 sep post)

/-- The verdict fields returned by `judge_node` (graph.py lines 137-141). -/
structure JudgeUpdate where
  summary : List Char
  winner : List Char
  justification : List Char
deriving DecidableEq

/-- Embeds the `try` block of `judge_node` (graph.py lines 128-131):
`none` when any of the three index accesses raises `IndexError`. -/
def parseJudge (result : List Char) : Option JudgeUpdate :=
  match splitIdx1 summaryMark result with
  | none => none
  | some afterSummary =>
    let summary := pyStrip (splitIdx0 winnerMark afterSummary)
    match splitIdx1 winnerMark result with
    | none => none
    | some afterWinner =>
      let winner := pyStrip (splitIdx0 justificationMark afterWinner)
      match splitIdx1 justificationMark result with
      | none => none
      | some afterJustification =>
        some ⟨summary, winner, pyStrip afterJustification⟩

/-- Embeds `judge_node` (graph.py lines 118-141).  The judge LLM chain
invocation is opaque: its raw string result is the parameter.  The
`except IndexError` fallback substitutes the three fixed sentinels. -/
def judge_node (result : List Char) : JudgeUpdate :=
  match parseJudge result with
  | some upd => upd
  | none => ⟨fallbackSummary, fallbackWinner, fallbackJustification⟩

/-- Embeds `router` (graph.py lines 145-150). -/
def router (s : GraphState) : List Char :=
  if s.round_number ≥ 8 then judgeName else agentName

/-- Embeds the LangGraph merge of an `agent_node` partial update into the
state: the `messages` channel is annotated with list concatenation
(graph.py line 13), the other returned keys overwrite. -/
def applyAgent (s : GraphState) (u : AgentUpdate) : GraphState :=
  { s with
    messages := s.messages ++ u.messages
    round_number := u.round_number
    next_speaker := u.next_speaker }

/-- Embeds the LangGraph merge of a `judge_node` partial update: only the
three returned keys are written. -/
def applyJudge (s : GraphState) (u : JudgeUpdate) : GraphState :=
  { s with
    summary := some u.summary
    winner := some u.winner
    justification := some u.justification }

/-- One full agent turn: `agent_node` output merged into the state. -/
def takeTurn (response : List Char) (s : GraphState) : GraphState :=
  applyAgent s (agent_node response s)

/-- Embeds the initial state dict built in main.py lines 43-48 (the
`winner`, `justification` and `summary` keys are absent). -/
def initialState (topic : List Char) : GraphState :=
  ⟨topic, [], 0, scientistName, none, none, none⟩

/-- Outcome of running the compiled graph: `done` carries the final state
and the number of judge-node executions; `maxTurnsExceeded` embeds the
`GraphRecursionError` raised when the step budget (`recursion_limit`)
is exhausted before reaching END. -/
inductive RunOutcome where
  | done : GraphState → Nat → RunOutcome
  | maxTurnsExceeded : GraphState → Nat → RunOutcome
deriving DecidableEq

/-- Embeds the sequential LangGraph execution of the compiled graph of
`get_graph` (graph.py lines 154-176), parameterized by the routing
function (`route`), the stubbed agent generation results (`gen`, indexed
by agent call number) and the judge generation result.  Each recursive
step is one node execution; `fuel` is the remaining step budget.  After
the agent node the conditional edge applies the routing function; the
judge node is followed by END. -/
def runAuxR (route : GraphState → List Char) (gen : Nat → List Char)
    (judgeResp : List Char) :
    Nat → List Char → Nat → Nat → GraphState → RunOutcome
  | 0, _, _, jcalls, s => .maxTurnsExceeded s jcalls
  | fuel + 1, node, calls, jcalls, s =>
    if node = judgeName then
      .done (applyJudge s (judge_node judgeResp)) (jcalls + 1)
    else
      let s' := takeTurn (gen calls) s
      runAuxR route gen judgeResp fuel (route s') (calls + 1) jcalls s'

/-- Embeds the full run of main.py lines 43-54: entry point `agent`,
routing by `router`, step budget 15 (the `recursion_limit` passed to
`app.stream`). -/
def runDebate (gen : Nat → List Char) (judgeResp : List Char)
    (topic : List Char) : RunOutcome :=
  runAuxR router gen judgeResp 15 agentName 0 0 (initialState topic)

/-- `k` consecutive agent turns from a state, the `i`-th turn consuming
`gen i`. -/
def iterTurns (gen : Nat → List Char) : Nat → GraphState → GraphState
  | 0, s => s
  | k + 1, s => takeTurn (gen k) (iterTurns gen k s)

/-- The expected state after `k` guard-free turns from the initial state:
transcript of the `k` generated texts tagged alternately, round counter
`k`, next speaker determined by the parity of `k`. -/
def mkState (topic : List Char) (gen : Nat → List Char) (k : Nat) : GraphState :=
  ⟨topic, (List.range k).map (fun i => ⟨gen i, speakerLabelAt i⟩), k,
    speakerLabelAt k, none, none, none⟩

/-- Modelled from the spec: one rendered transcript line without a
trailing newline, exactly as §4.1 describes it (label from 0-based index
parity, even renders Scientist). -/
def specLine (i : Nat) (content : List Char) : List Char :=
  "[Round ".toList ++ natChars (i + 1) ++ "] ".toList ++ speakerLabelAt i ++
    ": ".toList ++ content

/-- The list of per-utterance lines the spec says `format` produces, with
`i` the index of the first message. -/
def specLinesFrom : Nat → List AnyMessage → List (List Char)
  | _, [] => []
  | i, m :: rest => specLine i m.content :: specLinesFrom (i + 1) rest

/-- Joins lines with single newline separators. -/
def joinLines : List (List Char) → List Char
  | [] => []
  | [l] => l
  | l :: l2 :: ls => l ++ ['\n'] ++ joinLines (l2 :: ls)

/-- Splits a string into its physical lines at newline characters. -/
def splitLines : List Char → List (List Char)
  | [] => [[]]
  | c :: rest =>
    if c = '\n' then [] :: splitLines rest
    else
      match splitLines rest with
      | [] => [[c]]
      | l :: ls => (c :: l) :: ls

/-- Modelled from the spec: the trimmed substring of `r` between the
first occurrence of "SUMMARY:" and the first following occurrence of
"WINNER:" (to the end when "WINNER:" is absent); `none` when "SUMMARY:"
is absent. -/
def specSummaryOf (r : List Char) : Option (List Char) :=
  match splitFirst summaryMark r with
  | none => none
  | some (_, post) => some (pyStrip (splitIdx0 winnerMark post))

/-- `sep` occurs somewhere in `s` as a contiguous substring. -/
def Occurs (sep s : List Char) : Prop := ∃ a b, s = a ++ sep ++ b

/-- `sep` has no nontrivial border: no proper nonempty suffix of `sep` is
also a prefix of `sep`.  All three judge markers satisfy this. -/
def Borderless (sep : List Char) : Prop :=
  ∀ t, t < sep.length → 0 < t → sep.drop t ≠ sep.take (sep.length - t)

/-- States reachable from an initial state by any sequence of node
executions (agent turns and judge adjudications). -/
inductive Reachable : GraphState → Prop
  | init : ∀ topic, Reachable (initialState topic)
  | agentStep : ∀ {s} (response : List Char), Reachable s →
      Reachable (takeTurn response s)
  | judgeStep : ∀ {s} (result : List Char), Reachable s →
      Reachable (applyJudge s (judge_node result))

theorem splitFirst_eq_none_iff (sep : List Char) (hsep : sep ≠ []) (s : List Char) :
    splitFirst sep s = none ↔ ¬ Occurs sep s := by
  induction s with
  | nil =>
    have hpre : sep.isPrefixOf ([] : List Char) = false := by
      cases sep with
      | nil => exact absurd rfl hsep
      | cons c cs => rfl
    apply iff_of_true
    · simp [splitFirst, hpre]
    · rintro ⟨a, b, hab⟩
      rcases List.append_eq_nil.mp hab.symm with ⟨h1, -⟩
      rcases List.append_eq_nil.mp h1 with ⟨-, hsep'⟩
      exact hsep hsep'
  | cons c rest ih =>
    by_cases hpre : sep <+: c :: rest
    · apply iff_of_false
      · simp [splitFirst, hpre]
      · apply not_not_intro
        rcases hpre with ⟨t, ht⟩
        exact ⟨[], t, by simp [ht]⟩
    · have hoccIff : Occurs sep (c :: rest) ↔ Occurs sep rest := by
        constructor
        · rintro ⟨a, b, hab⟩
          cases a with
          | nil =>
            refine absurd ?_ hpre
            exact ⟨b, by simpa using hab.symm⟩
          | cons a0 as =>
            rw [List.cons_append, List.cons_append, List.cons.injEq] at hab
            exact ⟨as, b, hab.2⟩
        · rintro ⟨a, b, hab⟩
          exact ⟨c :: a, b, by simp [hab]⟩
      cases hsf : splitFirst sep rest with
      | none =>
        apply iff_of_true
        · simp [splitFirst, hpre, hsf]
        · exact fun hocc => ((ih.mp hsf) (hoccIff.mp hocc))
      | some pr =>
        apply iff_of_false
        · simp [splitFirst, hpre, hsf]
        · apply not_not_intro
          apply hoccIff.mpr
          by_contra hno
          rw [ih.mpr hno] at hsf
          cases hsf

theorem not_occurs_of_append_left {sep u v : List Char}
    (h : ¬ Occurs sep (u ++ v)) : ¬ Occurs sep u := by
  rintro ⟨a, b, hab⟩
  refine h ⟨a, b ++ v, ?_⟩
  rw [hab]
  simp [List.append_assoc]

theorem not_occurs_of_append_right {sep u v : List Char}
    (h : ¬ Occurs sep (u ++ v)) : ¬ Occurs sep v := by
  rintro ⟨a, b, hab⟩
  refine h ⟨u ++ a, b, ?_⟩
  rw [hab]
  simp [List.append_assoc]

theorem occurs_of_sandwich_pre {sep u b : List Char} (hb : Borderless sep)
    (hu : u ≠ []) (h : sep <+: u ++ (sep ++ b)) : Occurs sep u := by
  rcases h with ⟨t, ht⟩
  by_cases hlen : sep.length ≤ u.length
  · have htake : sep = u.take sep.length := by
      have h1 : (sep ++ t).take sep.length = sep := List.take_left sep t
      rw [ht, List.take_append_of_le_length hlen] at h1
      exact h1.symm
    refine ⟨[], u.drop sep.length, ?_⟩
    simp only [List.nil_append]
    conv_lhs => rw [← List.take_append_drop sep.length u]
    rw [← htake]
  · exfalso
    push_neg at hlen
    have hupos : 0 < u.length := List.length_pos.mpr hu
    have hu_eq : sep.take u.length = u := by
      have h1 : (sep ++ t).take u.length = sep.take u.length :=
        List.take_append_of_le_length (Nat.le_of_lt hlen)
      rw [ht, List.take_append_of_le_length (Nat.le_refl _), List.take_length] at h1
      exact h1.symm
    have hdrop : sep.drop u.length ++ t = sep ++ b := by
      have h2 : (sep ++ t).drop u.length = sep.drop u.length ++ t :=
        List.drop_append_of_le_length (Nat.le_of_lt hlen)
      rw [ht, List.drop_left] at h2
      exact h2.symm
    have h3 : sep.drop u.length = sep.take (sep.length - u.length) := by
      have h4 : (sep.drop u.length ++ t).take (sep.length - u.length)
          = (sep ++ b).take (sep.length - u.length) := by rw [hdrop]
      have h5 : (sep.drop u.length ++ t).take (sep.length - u.length)
          = sep.drop u.length := by
        have h6 : (sep.drop u.length).length = sep.length - u.length :=
          List.length_drop _ _
        rw [← h6, List.take_left]
      rw [h5, List.take_append_of_le_length (Nat.sub_le _ _)] at h4
      exact h4
    exact hb u.length hlen hupos h3

theorem splitFirst_append_of_first (sep a b : List Char) (hsep : sep ≠ [])
    (hb : Borderless sep) (ha : ¬ Occurs sep a) :
    splitFirst sep (a ++ sep ++ b) = some (a, b) := by
  induction a with
  | nil =>
    cases sep with
    | nil => exact absurd rfl hsep
    | cons c cs =>
      have hpre : (c :: cs) <+: (c :: cs) ++ b := ⟨b, rfl⟩
      simp only [List.nil_append, List.cons_append] at hpre ⊢
      simp only [splitFirst, hpre, if_pos, List.isPrefixOf_iff_prefix]
      simp only [Option.some.injEq, Prod.mk.injEq, true_and, List.length_cons,
        List.drop_succ_cons]
      exact List.drop_left cs b
  | cons c as ih =>
    have ha' : ¬ Occurs sep as := by
      rintro ⟨x, y, hxy⟩
      refine ha ⟨c :: x, y, ?_⟩
      rw [hxy]
      simp
    have hpre : ¬ sep <+: c :: (as ++ (sep ++ b)) := by
      intro hp
      rw [← List.cons_append, ← List.append_assoc] at hp
      rw [List.append_assoc] at hp
      exact ha (occurs_of_sandwich_pre hb (by simp) hp)
    simp only [List.cons_append, List.append_assoc]
    simp only [splitFirst, List.isPrefixOf_iff_prefix, hpre, if_false]
    have ih' : splitFirst sep (as ++ (sep ++ b)) = some (as, b) := by
      rw [← List.append_assoc]
      exact ih ha'
    rw [ih']

theorem splitIdx0_of_not_occurs (sep s : List Char) (hsep : sep ≠ [])
    (h : ¬ Occurs sep s) : splitIdx0 sep s = s := by
  unfold splitIdx0
  rw [(splitFirst_eq_none_iff sep hsep s).mpr h]

theorem splitIdx0_append (sep a b : List Char) (hsep : sep ≠ [])
    (hb : Borderless sep) (ha : ¬ Occurs sep a) :
    splitIdx0 sep (a ++ sep ++ b) = a := by
  unfold splitIdx0
  rw [splitFirst_append_of_first sep a b hsep hb ha]

theorem splitIdx1_append (sep a b : List Char) (hsep : sep ≠ [])
    (hb : Borderless sep) (ha : ¬ Occurs sep a) :
    splitIdx1 sep (a ++ sep ++ b) = some (splitIdx0 sep b) := by
  unfold splitIdx1
  rw [splitFirst_append_of_first sep a b hsep hb ha]

theorem borderless_summaryMark : Borderless summaryMark := by
  unfold Borderless
  decide

theorem borderless_winnerMark : Borderless winnerMark := by
  unfold Borderless
  decide

theorem borderless_justificationMark : Borderless justificationMark := by
  unfold Borderless
  decide

/-- C3 (amended): for every judge response in which at least one of the
three labels SUMMARY:, WINNER:, JUSTIFICATION: is absent, `judge_node`
does not raise and returns exactly the sentinel triple actually written
in the source: summary "The judge failed to provide a structured
summary.", winner "No winner declared", justification "The judge\x27s
output was malformed."  (The claim as stated quotes lowercase,
unpunctuated sentinels that differ from these.) -/
theorem judge_fallback_on_missing_label (result : List Char)
    (h : ¬ Occurs summaryMark result ∨ ¬ Occurs winnerMark result ∨
      ¬ Occurs justificationMark result) :
    judge_node result = ⟨fallbackSummary, fallbackWinner, fallbackJustification⟩ := by
  have hparse : parseJudge result = none := by
    rcases h with h | h | h
    · have hs : splitIdx1 summaryMark result = none := by
        unfold splitIdx1
        rw [(splitFirst_eq_none_iff _ (by decide) _).mpr h]
      simp [parseJudge, hs]
    · have hw : splitIdx1 winnerMark result = none := by
        unfold splitIdx1
        rw [(splitFirst_eq_none_iff _ (by decide) _).mpr h]
      cases hs : splitIdx1 summaryMark result with
      | none => simp [parseJudge, hs]
      | some x => simp [parseJudge, hs, hw]
    · have hj : splitIdx1 justificationMark result = none := by
        unfold splitIdx1
        rw [(splitFirst_eq_none_iff _ (by decide) _).mpr h]
      cases hs : splitIdx1 summaryMark result with
      | none => simp [parseJudge, hs]
      | some x =>
        cases hw : splitIdx1 winnerMark result with
        | none => simp [parseJudge, hs, hw]
        | some y => simp [parseJudge, hs, hw, hj]
  unfold judge_node
  rw [hparse]

/-- C4 (amended): for every judge response of the shape
a SUMMARY: s WINNER: w JUSTIFICATION: j in which each of the three labels
occurs exactly once (no label occurs inside the surrounding pieces), the
parsed summary is s, the parsed winner is w and the parsed justification
is j, each trimmed of surrounding whitespace.  (The claim as stated,
quantified over all responses containing the three markers, fails when a
marker occurs twice: Python split(sep) index 1 stops at the second
occurrence.) -/
theorem judge_parse_structured (a s w j : List Char)
    (hS1 : ¬ Occurs summaryMark a)
    (hS2 : ¬ Occurs summaryMark (s ++ winnerMark ++ w ++ justificationMark ++ j))
    (hW1 : ¬ Occurs winnerMark (a ++ summaryMark ++ s))
    (hW2 : ¬ Occurs winnerMark (w ++ justificationMark ++ j))
    (hJ1 : ¬ Occurs justificationMark (a ++ summaryMark ++ s ++ winnerMark ++ w))
    (hJ2 : ¬ Occurs justificationMark j) :
    judge_node (a ++ summaryMark ++ s ++ winnerMark ++ w ++ justificationMark ++ j) =
      ⟨pyStrip s, pyStrip w, pyStrip j⟩ := by
  have hr1 : a ++ summaryMark ++ s ++ winnerMark ++ w ++ justificationMark ++ j
      = a ++ summaryMark ++ (s ++ winnerMark ++ w ++ justificationMark ++ j) := by
    simp [List.append_assoc]
  have hr3 : a ++ summaryMark ++ s ++ winnerMark ++ w ++ justificationMark ++ j
      = (a ++ summaryMark ++ s) ++ winnerMark ++ (w ++ justificationMark ++ j) := by
    simp [List.append_assoc]
  have e1 : splitIdx1 summaryMark
      (a ++ summaryMark ++ s ++ winnerMark ++ w ++ justificationMark ++ j)
      = some (s ++ winnerMark ++ w ++ justificationMark ++ j) := by
    rw [hr1, splitIdx1_append _ _ _ (by decide) borderless_summaryMark hS1,
      splitIdx0_of_not_occurs _ _ (by decide) hS2]
  have e2 : splitIdx0 winnerMark (s ++ winnerMark ++ w ++ justificationMark ++ j)
      = s := by
    have h : s ++ winnerMark ++ w ++ justificationMark ++ j
        = s ++ winnerMark ++ (w ++ justificationMark ++ j) := by
      simp [List.append_assoc]
    rw [h]
    exact splitIdx0_append _ _ _ (by decide) borderless_winnerMark
      (not_occurs_of_append_right hW1)
  have e3 : splitIdx1 winnerMark
      (a ++ summaryMark ++ s ++ winnerMark ++ w ++ justificationMark ++ j)
      = some (w ++ justificationMark ++ j) := by
    rw [hr3, splitIdx1_append _ _ _ (by decide) borderless_winnerMark hW1,
      splitIdx0_of_not_occurs _ _ (by decide) hW2]
  have e4 : splitIdx0 justificationMark (w ++ justificationMark ++ j) = w :=
    splitIdx0_append _ _ _ (by decide) borderless_justificationMark
      (not_occurs_of_append_right hJ1)
  have e5 : splitIdx1 justificationMark
      (a ++ summaryMark ++ s ++ winnerMark ++ w ++ justificationMark ++ j)
      = some j := by
    rw [splitIdx1_append _ _ _ (by decide) borderless_justificationMark hJ1,
      splitIdx0_of_not_occurs _ _ (by decide) hJ2]
  unfold judge_node parseJudge
  rw [e1, e3, e5]
  simp only [e2, e4]

/-- Witness for C3: a concrete label-free response takes the fallback. -/
theorem judge_fallback_on_missing_label_witness :
    judge_node ("I refuse to answer.").toList =
      ⟨fallbackSummary, fallbackWinner, fallbackJustification⟩ :=
  judge_fallback_on_missing_label (("I refuse to answer.").toList)
    (Or.inl ((splitFirst_eq_none_iff summaryMark (by decide)
      (("I refuse to answer.").toList)).mp (by decide)))

/-- C3 counterexample: at the concrete label-free response
"I cannot decide.", `judge_node` returns the fallback triple of the
source, which is not the sentinel triple quoted by the claim (the claim
quotes "judge failed to provide a structured summary",
"no winner declared" and "judge output was malformed"). -/
theorem judge_fallback_claim_counterexample :
    judge_node ("I cannot decide.").toList =
        ⟨fallbackSummary, fallbackWinner, fallbackJustification⟩ ∧
      (⟨fallbackSummary, fallbackWinner, fallbackJustification⟩ : JudgeUpdate) ≠
        ⟨("judge failed to provide a structured summary").toList,
          ("no winner declared").toList,
          ("judge output was malformed").toList⟩ := by
  decide

/-- Witness for C4: the claim's concrete well-formed response parses to
S, W, J exactly. -/
theorem judge_parse_structured_witness :
    judge_node ("SUMMARY: S\nWINNER: W\nJUSTIFICATION: J").toList =
      ⟨("S").toList, ("W").toList, ("J").toList⟩ := by
  have h := judge_parse_structured [] ((" S\n").toList) ((" W\n").toList)
    ((" J").toList)
    ((splitFirst_eq_none_iff summaryMark (by decide) []).mp (by decide))
    ((splitFirst_eq_none_iff summaryMark (by decide) _).mp (by decide))
    ((splitFirst_eq_none_iff winnerMark (by decide) _).mp (by decide))
    ((splitFirst_eq_none_iff winnerMark (by decide) _).mp (by decide))
    ((splitFirst_eq_none_iff justificationMark (by decide) _).mp (by decide))
    ((splitFirst_eq_none_iff justificationMark (by decide) _).mp (by decide))
  revert h
  decide

/-- C4 counterexample: in the concrete response
"SUMMARY: A SUMMARY: B WINNER: W JUSTIFICATION: J" (which contains all
three label markers), the trimmed substring between SUMMARY: and WINNER:
is "A SUMMARY: B", but `judge_node` parses the summary as "A". -/
theorem judge_parse_claim_counterexample :
    specSummaryOf ("SUMMARY: A SUMMARY: B WINNER: W JUSTIFICATION: J").toList =
        some (("A SUMMARY: B").toList) ∧
      (judge_node ("SUMMARY: A SUMMARY: B WINNER: W JUSTIFICATION: J").toList).summary =
        ("A").toList ∧
      (("A").toList : List Char) ≠ ("A SUMMARY: B").toList := by
  decide

theorem scientist_ne_philosopher : scientistName ≠ philosopherName := by decide

theorem flip_speakerLabelAt (k : Nat) :
    (if speakerLabelAt k = scientistName then philosopherName else scientistName)
      = speakerLabelAt (k + 1) := by
  unfold speakerLabelAt
  rcases Nat.mod_two_eq_zero_or_one k with hk | hk
  · have hk1 : (k + 1) % 2 = 1 := by omega
    simp [hk, hk1]
  · have hk1 : (k + 1) % 2 = 0 := by omega
    rw [hk, hk1]
    decide

/-- C2: the router is a pure total function of `round_number` alone: it
routes to the agent node whenever `round_number` is at most 7 and to the
judge node whenever `round_number` is at least 8, and two states with the
same `round_number` are routed identically. -/
theorem router_threshold (s s' : GraphState) :
    (s.round_number ≤ 7 → router s = agentName) ∧
      (8 ≤ s.round_number → router s = judgeName) ∧
      (s.round_number = s'.round_number → router s = router s') := by
  refine ⟨?_, ?_, ?_⟩
  · intro h
    unfold router
    rw [if_neg (by omega)]
  · intro h
    unfold router
    rw [if_pos h]
  · intro h
    unfold router
    rw [h]

/-- Witness for C2 at round numbers 0 and 8. -/
theorem router_threshold_witness :
    router (initialState []) = agentName ∧
      router (mkState [] (fun _ => []) 8) = judgeName :=
  ⟨(router_threshold (initialState []) (initialState [])).1 (by decide),
    (router_threshold (mkState [] (fun _ => []) 8) (initialState [])).2.1 (by decide)⟩

/-- C5: a turn appends exactly one utterance tagged with the previous
`next_speaker`, increments `round_number` by one and flips `next_speaker`
to the other persona; consequently after `k` consecutive turns from the
initial state `round_number = k` and `next_speaker` is Scientist exactly
when `k` is even. -/
theorem takeTurn_progress :
    (∀ response s, ∃ txt,
      (takeTurn response s).messages = s.messages ++ [⟨txt, s.next_speaker⟩] ∧
        (takeTurn response s).round_number = s.round_number + 1 ∧
        (s.next_speaker = scientistName →
          (takeTurn response s).next_speaker = philosopherName) ∧
        (s.next_speaker = philosopherName →
          (takeTurn response s).next_speaker = scientistName)) ∧
      (∀ gen topic k,
        (iterTurns gen k (initialState topic)).round_number = k ∧
          (iterTurns gen k (initialState topic)).next_speaker = speakerLabelAt k) := by
  constructor
  · intro response s
    refine ⟨if response ∈ s.messages.map AnyMessage.content then fillerText
      else response, ?_, ?_, ?_, ?_⟩
    · simp [takeTurn, applyAgent, agent_node]
    · simp [takeTurn, applyAgent, agent_node]
    · intro h
      simp [takeTurn, applyAgent, agent_node, h]
    · intro h
      simp only [takeTurn, applyAgent, agent_node]
      rw [h, if_neg (Ne.symm scientist_ne_philosopher)]
  · intro gen topic k
    induction k with
    | zero =>
      constructor
      · rfl
      · simp [iterTurns, initialState, speakerLabelAt]
    | succ k ih =>
      obtain ⟨hr, hs⟩ := ih
      constructor
      · simp only [iterTurns, takeTurn, applyAgent, agent_node]
        rw [hr]
      · simp only [iterTurns, takeTurn, applyAgent, agent_node]
        rw [hs, flip_speakerLabelAt]

/-- Witness for C5: one concrete turn flips the speaker, and two turns
from the initial state set the round counter to 2. -/
theorem takeTurn_progress_witness :
    (takeTurn (["x"].head!.toList) (initialState [])).next_speaker = philosopherName ∧
      (iterTurns (fun _ => []) 2 (initialState [])).round_number = 2 := by
  constructor
  · obtain ⟨txt, h1, h2, h3, h4⟩ := takeTurn_progress.1 (["x"].head!.toList)
      (initialState [])
    exact h3 rfl
  · exact (takeTurn_progress.2 (fun _ => []) [] 2).1

/-- C6: when the generated text exactly equals the text of some prior
utterance of the transcript, the fixed filler sentence is substituted and
the transcript still grows by exactly one element. -/
theorem repetition_guard (response : List Char) (s : GraphState)
    (h : response ∈ s.messages.map AnyMessage.content) :
    (takeTurn response s).messages =
        s.messages ++ [⟨fillerText, s.next_speaker⟩] ∧
      (takeTurn response s).messages.length = s.messages.length + 1 := by
  constructor
  · simp [takeTurn, applyAgent, agent_node, h]
  · simp [takeTurn, applyAgent, agent_node]

/-- Witness for C6: a concrete repeated response is replaced by the
filler sentence. -/
theorem repetition_guard_witness :
    (takeTurn (("hi").toList)
        (⟨[], [⟨("hi").toList, scientistName⟩], 1, philosopherName,
          none, none, none⟩ : GraphState)).messages =
      [⟨("hi").toList, scientistName⟩] ++
        [⟨fillerText, philosopherName⟩] :=
  (repetition_guard (("hi").toList)
    (⟨[], [⟨("hi").toList, scientistName⟩], 1, philosopherName,
      none, none, none⟩ : GraphState) (by decide)).1

/-- C8: in every state reachable from the initial state, `round_number`
equals the transcript length, and both node executions preserve the
equality. -/
theorem round_number_invariant :
    (∀ s, Reachable s → s.round_number = s.messages.length) ∧
      (∀ s (response : List Char), s.round_number = s.messages.length →
        (takeTurn response s).round_number =
          (takeTurn response s).messages.length) ∧
      (∀ s (result : List Char), s.round_number = s.messages.length →
        (applyJudge s (judge_node result)).round_number =
          (applyJudge s (judge_node result)).messages.length) := by
  have hstep : ∀ s (response : List Char), s.round_number = s.messages.length →
      (takeTurn response s).round_number =
        (takeTurn response s).messages.length := by
    intro s response h
    simp [takeTurn, applyAgent, agent_node, h]
  have hjudge : ∀ s (result : List Char), s.round_number = s.messages.length →
      (applyJudge s (judge_node result)).round_number =
        (applyJudge s (judge_node result)).messages.length := by
    intro s result h
    simpa [applyJudge] using h
  refine ⟨?_, hstep, hjudge⟩
  intro s hs
  induction hs with
  | init topic => rfl
  | agentStep response hr ih => exact hstep _ response ih
  | judgeStep result hr ih => exact hjudge _ result ih

/-- Witness for C8 at the initial state and after one concrete turn. -/
theorem round_number_invariant_witness :
    (initialState []).round_number = (initialState []).messages.length ∧
      (takeTurn [] (initialState [])).round_number =
        (takeTurn [] (initialState [])).messages.length :=
  ⟨round_number_invariant.1 (initialState []) (Reachable.init []),
    round_number_invariant.2.1 (initialState []) [] rfl⟩

/-- C10: the judge node's merged update writes only the summary, winner
and justification fields; topic, transcript, round counter and next
speaker are unchanged by adjudication. -/
theorem judge_frame (s : GraphState) (result : List Char) :
    (applyJudge s (judge_node result)).topic = s.topic ∧
      (applyJudge s (judge_node result)).messages = s.messages ∧
      (applyJudge s (judge_node result)).round_number = s.round_number ∧
      (applyJudge s (judge_node result)).next_speaker = s.next_speaker ∧
      (applyJudge s (judge_node result)).summary =
        some (judge_node result).summary ∧
      (applyJudge s (judge_node result)).winner =
        some (judge_node result).winner ∧
      (applyJudge s (judge_node result)).justification =
        some (judge_node result).justification :=
  ⟨rfl, rfl, rfl, rfl, rfl, rfl, rfl⟩

theorem runAuxR_const_agent (gen : Nat → List Char) (judgeResp : List Char) :
    ∀ fuel calls jcalls s, ∃ s',
      runAuxR (fun _ => agentName) gen judgeResp fuel agentName calls jcalls s =
        .maxTurnsExceeded s' jcalls := by
  intro fuel
  induction fuel with
  | zero =>
    intro calls jcalls s
    exact ⟨s, rfl⟩
  | succ fuel ih =>
    intro calls jcalls s
    simp only [runAuxR, if_neg (show ¬ agentName = judgeName by decide)]
    exact ih (calls + 1) jcalls (takeTurn (gen calls) s)

/-- C9: with the router stubbed to always continue (always route back to
the agent node), the orchestration does not loop forever or terminate
normally: it aborts with the distinct `maxTurnsExceeded` outcome once the
configured ceiling of 15 node invocations (the `recursion_limit` of
main.py) is exhausted, the judge never having run. -/
theorem stub_router_hits_ceiling (gen : Nat → List Char)
    (judgeResp topic : List Char) :
    ∃ s', runAuxR (fun _ => agentName) gen judgeResp 15 agentName 0 0
          (initialState topic) = .maxTurnsExceeded s' 0 ∧
        ∀ f n, runAuxR (fun _ => agentName) gen judgeResp 15 agentName 0 0
          (initialState topic) ≠ .done f n := by
  obtain ⟨s', hs'⟩ := runAuxR_const_agent gen judgeResp 15 0 0 (initialState topic)
  refine ⟨s', hs', ?_⟩
  intro f n h
  rw [hs'] at h
  cases h

theorem takeTurn_mkState (topic : List Char) (gen : Nat → List Char) (k : Nat)
    (h : ∀ i, i < k → gen i ≠ gen k) :
    takeTurn (gen k) (mkState topic gen k) = mkState topic gen (k + 1) := by
  have hnot : ¬ gen k ∈ (((List.range k).map fun i =>
      (⟨gen i, speakerLabelAt i⟩ : AnyMessage)).map AnyMessage.content) := by
    simp only [List.map_map, List.mem_map, List.mem_range, Function.comp]
    rintro ⟨i, hi, hgi⟩
    exact h i hi hgi
  unfold takeTurn applyAgent agent_node mkState
  simp only [if_neg hnot]
  simp only [List.range_succ, List.map_append, List.map_cons, List.map_nil]
  rw [flip_speakerLabelAt]

theorem runAuxR_agent_step (route : GraphState → List Char) (gen : Nat → List Char)
    (jr : List Char) (fuel calls jcalls : Nat) (s : GraphState) :
    runAuxR route gen jr (fuel + 1) agentName calls jcalls s =
      runAuxR route gen jr fuel (route (takeTurn (gen calls) s)) (calls + 1)
        jcalls (takeTurn (gen calls) s) := by
  simp only [runAuxR, if_neg (show ¬ agentName = judgeName by decide)]

theorem runAuxR_judge_step (route : GraphState → List Char) (gen : Nat → List Char)
    (jr : List Char) (fuel calls jcalls : Nat) (s : GraphState) :
    runAuxR route gen jr (fuel + 1) judgeName calls jcalls s =
      .done (applyJudge s (judge_node jr)) (jcalls + 1) := by
  simp [runAuxR]

theorem router_mkState_lt (topic : List Char) (gen : Nat → List Char) (k : Nat)
    (h : k < 8) : router (mkState topic gen k) = agentName := by
  have hn : ¬ 8 ≤ k := by omega
  simp [router, mkState, hn]

theorem router_mkState_ge (topic : List Char) (gen : Nat → List Char) (k : Nat)
    (h : 8 ≤ k) : router (mkState topic gen k) = judgeName := by
  simp [router, mkState, h]

theorem run_phase (gen : Nat → List Char) (judgeResp topic : List Char)
    (hinj : ∀ i, i < 8 → ∀ j, j < 8 → gen i = gen j → i = j) :
    ∀ r k, k + r + 1 = 8 → ∀ fuel, r + 1 < fuel →
      runAuxR router gen judgeResp fuel agentName k 0 (mkState topic gen k) =
        .done (applyJudge (mkState topic gen 8) (judge_node judgeResp)) 1 := by
  intro r
  induction r with
  | zero =>
    intro k hk fuel hfuel
    have hk7 : k = 7 := by omega
    subst hk7
    obtain ⟨f, rfl⟩ : ∃ f, fuel = f + 1 + 1 := ⟨fuel - 2, by omega⟩
    have hstep : takeTurn (gen 7) (mkState topic gen 7) = mkState topic gen 8 :=
      takeTurn_mkState topic gen 7 (fun i hi he => by
        have := hinj i (by omega) 7 (by omega) he
        omega)
    rw [runAuxR_agent_step, hstep, router_mkState_ge topic gen 8 (by omega),
      runAuxR_judge_step]
  | succ r ih =>
    intro k hk fuel hfuel
    obtain ⟨f, rfl⟩ : ∃ f, fuel = f + 1 := ⟨fuel - 1, by omega⟩
    have hstep : takeTurn (gen k) (mkState topic gen k) = mkState topic gen (k + 1) :=
      takeTurn_mkState topic gen k (fun i hi he => by
        have := hinj i (by omega) k (by omega) he
        omega)
    rw [runAuxR_agent_step, hstep, router_mkState_lt topic gen (k + 1) (by omega)]
    exact ih (k + 1) (by omega) f (by omega)

/-- C1: from the initial state (round 0, Scientist next, empty
transcript), running the full loop with a generation stub returning a
distinct string per call terminates via the `done` outcome, the judge
node runs exactly once, and the final transcript holds exactly 8
utterances whose texts are the 8 stubbed strings in call order, tagged
alternately Scientist/Philosopher starting with Scientist. -/
theorem debate_end_to_end (gen : Nat → List Char) (judgeResp topic : List Char)
    (hinj : ∀ i, i < 8 → ∀ j, j < 8 → gen i = gen j → i = j) :
    runDebate gen judgeResp topic =
        .done (applyJudge (mkState topic gen 8) (judge_node judgeResp)) 1 ∧
      (applyJudge (mkState topic gen 8) (judge_node judgeResp)).messages =
        (List.range 8).map (fun i => ⟨gen i, speakerLabelAt i⟩) ∧
      (applyJudge (mkState topic gen 8) (judge_node judgeResp)).messages.length
        = 8 := by
  refine ⟨?_, rfl, by simp [applyJudge, mkState]⟩
  unfold runDebate
  have hinit : initialState topic = mkState topic gen 0 := by
    unfold initialState mkState
    simp [speakerLabelAt]
  rw [hinit]
  exact run_phase gen judgeResp topic hinj 7 0 (by omega) 15 (by omega)

/-- Witness for C1: the stub generating the decimal numeral of the call
index runs the loop to completion with 8 alternating utterances. -/
theorem debate_end_to_end_witness :
    runDebate (fun i => natChars i) [] [] =
      .done (applyJudge (mkState [] (fun i => natChars i) 8)
        (judge_node [])) 1 :=
  (debate_end_to_end (fun i => natChars i) [] [] (by decide)).1

theorem natCharsCore_digit (fuel : Nat) : ∀ n acc c, c ∈ natCharsCore fuel n acc →
    c ∈ acc ∨ ∃ m, m < 10 ∧ c = Char.ofNat (48 + m) := by
  induction fuel with
  | zero =>
    intro n acc c hc
    exact Or.inl hc
  | succ fuel ih =>
    intro n acc c hc
    unfold natCharsCore at hc
    by_cases h10 : n < 10
    · rw [if_pos h10] at hc
      rcases List.mem_cons.mp hc with hc | hc
      · exact Or.inr ⟨n % 10, Nat.mod_lt _ (by omega), hc⟩
      · exact Or.inl hc
    · rw [if_neg h10] at hc
      rcases ih (n / 10) _ c hc with hc | hc
      · rcases List.mem_cons.mp hc with hc | hc
        · exact Or.inr ⟨n % 10, Nat.mod_lt _ (by omega), hc⟩
        · exact Or.inl hc
      · exact Or.inr hc

theorem natChars_no_newline (n : Nat) : ('\n') ∉ natChars n := by
  intro h
  rcases natCharsCore_digit (n + 1) n [] ('\n') h with h | ⟨m, hm, he⟩
  · cases h
  · interval_cases m <;> exact absurd he (by decide)

theorem speakerLabelAt_no_newline (i : Nat) : ('\n') ∉ speakerLabelAt i := by
  unfold speakerLabelAt
  by_cases h : i % 2 = 0
  · rw [if_pos h]
    decide
  · rw [if_neg h]
    decide

theorem specLine_no_newline (i : Nat) (content : List Char)
    (h : ('\n') ∉ content) : ('\n') ∉ specLine i content := by
  unfold specLine
  intro hmem
  simp only [List.mem_append] at hmem
  rcases hmem with ((((h1 | h2) | h3) | h4) | h5) | h6
  · exact absurd h1 (by decide)
  · exact natChars_no_newline (i + 1) h2
  · exact absurd h3 (by decide)
  · exact speakerLabelAt_no_newline i h4
  · exact absurd h5 (by decide)
  · exact h h6

theorem histLine_eq_specLine (i : Nat) (content : List Char) :
    histLine i content = specLine i content ++ [('\n')] := by
  unfold histLine specLine
  simp [List.append_assoc]

theorem specLinesFrom_length (msgs : List AnyMessage) :
    ∀ i, (specLinesFrom i msgs).length = msgs.length := by
  induction msgs with
  | nil => intro i; rfl
  | cons m rest ih =>
    intro i
    simp [specLinesFrom, ih (i + 1)]

theorem specLinesFrom_no_newline (msgs : List AnyMessage)
    (h : ∀ m ∈ msgs, ('\n') ∉ m.content) :
    ∀ i, ∀ l ∈ specLinesFrom i msgs, ('\n') ∉ l := by
  induction msgs with
  | nil =>
    intro i l hl
    cases hl
  | cons m rest ih =>
    intro i l hl
    rcases List.mem_cons.mp hl with hl | hl
    · subst hl
      exact specLine_no_newline i m.content (h m (List.mem_cons_self m rest))
    · exact ih (fun m' hm' => h m' (List.mem_cons_of_mem m hm')) (i + 1) l hl

theorem histBody_eq_joinLines (msgs : List AnyMessage) :
    ∀ i, msgs ≠ [] →
      histBody i msgs = joinLines (specLinesFrom i msgs) ++ [('\n')] := by
  induction msgs with
  | nil =>
    intro i h
    exact absurd rfl h
  | cons m rest ih =>
    intro i _
    cases rest with
    | nil =>
      simp [histBody, specLinesFrom, joinLines, histLine_eq_specLine]
    | cons m2 rest2 =>
      have h1 : histBody i (m :: m2 :: rest2)
          = histLine i m.content ++ histBody (i + 1) (m2 :: rest2) := rfl
      have h2 : specLinesFrom i (m :: m2 :: rest2)
          = specLine i m.content :: specLine (i + 1) m2.content
              :: specLinesFrom (i + 1 + 1) rest2 := rfl
      have h3 : specLinesFrom (i + 1) (m2 :: rest2)
          = specLine (i + 1) m2.content :: specLinesFrom (i + 1 + 1) rest2 := rfl
      rw [h1, ih (i + 1) (by simp), h2, h3, joinLines, histLine_eq_specLine]
      simp [List.append_assoc]

theorem splitLines_of_no_newline (l : List Char) (h : ('\n') ∉ l) :
    splitLines l = [l] := by
  induction l with
  | nil => rfl
  | cons c t ih =>
    have hc : ¬ c = ('\n') := fun he => h (he ▸ List.mem_cons_self c t)
    have ht : ('\n') ∉ t := fun hm => h (List.mem_cons_of_mem c hm)
    simp [splitLines, hc, ih ht]

theorem splitLines_append_newline (l : List Char) (h : ('\n') ∉ l)
    (rest : List Char) :
    splitLines (l ++ ('\n') :: rest) = l :: splitLines rest := by
  induction l with
  | nil => simp [splitLines]
  | cons c t ih =>
    have hc : ¬ c = ('\n') := fun he => h (he ▸ List.mem_cons_self c t)
    have ht : ('\n') ∉ t := fun hm => h (List.mem_cons_of_mem c hm)
    rw [List.cons_append]
    simp only [splitLines, hc, if_neg hc, ih ht]
    simp

theorem splitLines_joinLines (ls : List (List Char)) :
    ls ≠ [] → (∀ l ∈ ls, ('\n') ∉ l) → splitLines (joinLines ls) = ls := by
  induction ls with
  | nil =>
    intro h
    exact absurd rfl h
  | cons l rest ih =>
    intro _ h
    cases rest with
    | nil => exact splitLines_of_no_newline l (h l (List.mem_cons_self l []))
    | cons l2 rest2 =>
      rw [joinLines, List.append_assoc, List.singleton_append]
      rw [splitLines_append_newline l (h l (List.mem_cons_self l _))]
      rw [ih (by simp) (fun l' hl' => h l' (List.mem_cons_of_mem l hl'))]

theorem specLine_ends_with_content (i : Nat) (content : List Char) :
    ∃ p, specLine i content = p ++ content :=
  ⟨"[Round ".toList ++ natChars (i + 1) ++ "] ".toList ++ speakerLabelAt i ++
    ": ".toList, rfl⟩

theorem specLine_head_bracket (i : Nat) (content : List Char) :
    ∃ t, specLine i content = ('[') :: t := by
  have h : ("[Round ").toList = ('[') :: ("Round ").toList := rfl
  unfold specLine
  rw [h]
  exact ⟨("Round ").toList ++ natChars (i + 1) ++ "] ".toList ++ speakerLabelAt i ++
    ": ".toList ++ content, by simp [List.append_assoc]⟩

theorem pyLstrip_cons_of_not_space (c : Char) (t : List Char)
    (h : isPySpace c = false) : pyLstrip (c :: t) = c :: t := by
  simp [pyLstrip, List.dropWhile, h]

theorem joinLines_cons_append (l : List Char) (ls : List (List Char)) :
    ∃ t, joinLines (l :: ls) = l ++ t := by
  cases ls with
  | nil => exact ⟨[], by simp [joinLines]⟩
  | cons b rest =>
    exact ⟨('\n') :: joinLines (b :: rest), by rw [joinLines]; simp⟩

theorem joinLines_ends_with_last (ls : List (List Char)) (l : List Char) :
    ∃ t, joinLines (ls ++ [l]) = t ++ l := by
  induction ls with
  | nil => exact ⟨[], by simp [joinLines]⟩
  | cons a rest ih =>
    obtain ⟨t, ht⟩ := ih
    cases rest with
    | nil => exact ⟨a ++ [('\n')], by simp [joinLines, List.append_assoc]⟩
    | cons b rest2 =>
      refine ⟨a ++ ('\n') :: t, ?_⟩
      have hcons : (a :: b :: rest2) ++ [l] = a :: b :: (rest2 ++ [l]) := rfl
      rw [hcons, joinLines]
      have hbl : (b :: rest2) ++ [l] = b :: (rest2 ++ [l]) := rfl
      rw [← hbl, ht]
      simp [List.append_assoc]

theorem specLinesFrom_getLast (msgs : List AnyMessage) (m : AnyMessage) :
    msgs.getLast? = some m →
    ∀ i, ∃ ls' j, specLinesFrom i msgs = ls' ++ [specLine j m.content] := by
  induction msgs with
  | nil =>
    intro h
    cases h
  | cons a rest ih =>
    intro h i
    cases rest with
    | nil =>
      have ha : a = m := by simpa using h
      subst ha
      exact ⟨[], i, by simp [specLinesFrom]⟩
    | cons b rest2 =>
      have h' : (b :: rest2).getLast? = some m := by
        rw [List.getLast?_cons_cons] at h
        exact h
      obtain ⟨ls', j, hls⟩ := ih h' (i + 1)
      refine ⟨specLine i a.content :: ls', j, ?_⟩
      have hrfl : specLinesFrom i (a :: b :: rest2)
          = specLine i a.content :: specLinesFrom (i + 1) (b :: rest2) := rfl
      rw [hrfl, hls]
      rfl

theorem pyRstrip_append_newline (t : List Char) (c : Char)
    (hc : isPySpace c = false) :
    pyRstrip ((t ++ [c]) ++ [('\n')]) = t ++ [c] := by
  unfold pyRstrip
  rw [List.reverse_append, List.reverse_append]
  simp only [List.reverse_singleton, List.singleton_append]
  simp [List.dropWhile, hc, show isPySpace ('\n') = true from rfl]

/-- C7 (amended): `format_history` is total over finite transcripts.  For
the empty transcript it returns the fixed sentinel of the source, "The
debate has not started yet." (the claim quotes the different string "the
debate has not started").  For every non-empty transcript of length n in
which no utterance text contains a newline and the final utterance text
ends in a non-whitespace character, the output consists of exactly n
physical lines, line i (1-indexed, 0-indexed as i-1 in `specLine`) being
"[Round i] Scientist: text" for odd i and "[Round i] Philosopher: text"
for even i, in transcript order. -/
theorem format_history_spec :
    format_history [] = notStartedSentinel ∧
      ∀ msgs : List AnyMessage, msgs ≠ [] →
        (∀ m ∈ msgs, ('\n') ∉ m.content) →
        (∃ m t c, msgs.getLast? = some m ∧ m.content = t ++ [c] ∧
          isPySpace c = false) →
        splitLines (format_history msgs) = specLinesFrom 0 msgs ∧
          (specLinesFrom 0 msgs).length = msgs.length := by
  refine ⟨rfl, ?_⟩
  intro msgs hne hnl hlast
  obtain ⟨m, t, c, hm, hmc, hc⟩ := hlast
  obtain ⟨m0, rest0, rfl⟩ : ∃ m0 rest0, msgs = m0 :: rest0 := by
    cases msgs with
    | nil => exact absurd rfl hne
    | cons a b => exact ⟨a, b, rfl⟩
  have hhead : ∃ x, joinLines (specLinesFrom 0 (m0 :: rest0)) = ('[') :: x := by
    have hcons : specLinesFrom 0 (m0 :: rest0)
        = specLine 0 m0.content :: specLinesFrom 1 rest0 := rfl
    obtain ⟨t2, ht2⟩ := joinLines_cons_append (specLine 0 m0.content)
      (specLinesFrom 1 rest0)
    obtain ⟨t3, ht3⟩ := specLine_head_bracket 0 m0.content
    refine ⟨t3 ++ t2, ?_⟩
    rw [hcons, ht2, ht3, List.cons_append]
  have hendd : ∃ T, joinLines (specLinesFrom 0 (m0 :: rest0)) = T ++ [c] := by
    obtain ⟨ls', j, hls⟩ := specLinesFrom_getLast (m0 :: rest0) m hm 0
    obtain ⟨t4, ht4⟩ := joinLines_ends_with_last ls' (specLine j m.content)
    obtain ⟨p, hp⟩ := specLine_ends_with_content j m.content
    refine ⟨t4 ++ (p ++ t), ?_⟩
    rw [hls, ht4, hp, hmc]
    simp [List.append_assoc]
  obtain ⟨x, hx⟩ := hhead
  obtain ⟨T, hT⟩ := hendd
  have hJ : format_history (m0 :: rest0)
      = joinLines (specLinesFrom 0 (m0 :: rest0)) := by
    rw [format_history, if_neg hne, histBody_eq_joinLines (m0 :: rest0) 0 hne]
    unfold pyStrip
    rw [hx, List.cons_append,
      pyLstrip_cons_of_not_space _ _ (show isPySpace ('[') = false from rfl),
      ← List.cons_append, ← hx, hT]
    exact pyRstrip_append_newline T c hc
  refine ⟨?_, specLinesFrom_length (m0 :: rest0) 0⟩
  rw [hJ]
  exact splitLines_joinLines (specLinesFrom 0 (m0 :: rest0))
    (by
      rw [show specLinesFrom 0 (m0 :: rest0)
        = specLine 0 m0.content :: specLinesFrom 1 rest0 from rfl]
      simp)
    (specLinesFrom_no_newline (m0 :: rest0) hnl 0)

/-- Witness for C7: a concrete two-message transcript renders as exactly
its two expected lines. -/
theorem format_history_spec_witness :
    splitLines (format_history
        [⟨("hello").toList, scientistName⟩, ⟨("world").toList, philosopherName⟩])
      = specLinesFrom 0
        [⟨("hello").toList, scientistName⟩, ⟨("world").toList, philosopherName⟩] ∧
      (specLinesFrom 0
        [⟨("hello").toList, scientistName⟩,
          ⟨("world").toList, philosopherName⟩]).length
        = ([⟨("hello").toList, scientistName⟩,
            ⟨("world").toList, philosopherName⟩] : List AnyMessage).length :=
  format_history_spec.2
    [⟨("hello").toList, scientistName⟩, ⟨("world").toList, philosopherName⟩]
    (by decide) (by decide)
    ⟨⟨("world").toList, philosopherName⟩, ("worl").toList, ('d'),
      by decide, by decide, by decide⟩

/-- C7 counterexample: three concrete facts refuting the claim as stated:
the empty-transcript sentinel differs from the quoted one; a transcript
whose single utterance text contains a newline renders as two physical
lines, not one; and a final utterance text ending in a space loses that
space to trimming, so the last line is not of the claimed form. -/
theorem format_history_claim_counterexample :
    format_history [] ≠ ("the debate has not started").toList ∧
      (splitLines (format_history
        [⟨("a\nb").toList, scientistName⟩])).length ≠ 1 ∧
      splitLines (format_history [⟨("hi ").toList, scientistName⟩]) ≠
        [specLine 0 (("hi ").toList)] := by
  decide
